import Mathlib

/-!
Verification of the structured-output schema compiler and the tool execution
lifecycle of the repository.

Embedded sources:
* `src/worker/agents/inferutils/zodToJsonSchema.ts` — the Zod → JSON Schema
  compiler (`processZodType` and its per-variant helpers, `zodToJsonSchema`,
  `createAnthropicOutputFormat`).
* `src/worker/agents/tools/customTools.ts` — `executeToolWithDefinition`,
  the tool invocation lifecycle (`onStart` / `implementation` / `onComplete`).

Modelling conventions:
* TypeScript `undefined` on an optional field becomes `Option.none`; a JSON
  object field that is present becomes `Option.some`.
* The source compiler is plain recursion on the JavaScript call stack and can
  diverge on cyclic `z.lazy` schemas (the file header documents "No recursive
  schemas" as a limitation).  We model it as a fuel-indexed function
  `processZodType fuel env node : Option JsonSchema`: `none` means the fuel ran
  out, and a run of the source terminates on an input exactly when some fuel
  suffices in the model.  Every recursive call consumes one unit of fuel.
* A `z.lazy` getter is modelled as a named reference resolved through a total
  environment `SchemaEnv`; a cyclic schema is an environment that maps a name
  to a node that mentions that same name.
* Promises are modelled with `Except`: a resolved promise is `Except.ok`, a
  rejection (or a synchronous throw) is `Except.error`.
-/

/-- JSON values as they occur in literal, enum and default positions of the
compiled schema.  Numbers are modelled as integers; none of the verified
properties depends on fractional values. -/
inductive JsonValue where
  | str (s : String)
  | num (n : Int)
  | boolVal (b : Bool)
  | nullVal
  deriving DecidableEq, Repr

/-- Models the filter in `processNativeEnum`:
`typeof val === 'string' || typeof val === 'number'`. -/
def JsonValue.isStringOrNumber : JsonValue → Bool
  | .str _ => true
  | .num _ => true
  | _ => false

/-- One entry of `ZodString._def.checks`.  The source switches on `check.kind`;
kinds it does not handle (length bounds, regex, …) fall through the `switch`
and leave the result untouched, modelled by `otherCheck`. -/
inductive StringCheck where
  | email
  | url
  | uuid
  | datetime
  | date
  | time
  | ip (version : Option String)
  | otherCheck
  deriving DecidableEq, Repr

/-- The `JsonSchema` record type of `zodToJsonSchema.ts` (its writable fields:
the compiler never writes `$ref`, `$defs`, `definitions` or `nullable`, so
those are omitted).  A field holding `none` corresponds to the JSON key being
absent. -/
structure JsonSchema where
  type : Option String
  properties : Option (List (String × JsonSchema))
  required : Option (List String)
  additionalProperties : Option Bool
  items : Option JsonSchema
  enum : Option (List JsonValue)
  const : Option JsonValue
  anyOf : Option (List JsonSchema)
  allOf : Option (List JsonSchema)
  default : Option JsonValue
  description : Option String
  format : Option String
  minItems : Option Int
  deriving Repr

/-- The schema object `{}` with every field absent. -/
def JsonSchema.empty : JsonSchema :=
  ⟨none, none, none, none, none, none, none, none, none, none, none, none, none⟩

/-- The body of a Zod schema node (`_def` minus the description), parameterised
by the type of child nodes so that it can be nested inside `SchemaNode`.
One constructor per `typeName` handled by the `switch` in `processZodType`;
`zunhandled` stands for any type name that falls through to the `default`
arm. -/
inductive SchemaCoreF (N : Type) where
  | zstring (checks : List StringCheck)
  | znumber
  | zbigint
  | zboolean
  | znull
  | zundefined
  | zliteral (value : JsonValue)
  | zenum (values : List String)
  | znativeEnum (entries : List (String × JsonValue))
  | zarray (elem : N) (minLength : Option Int)
  | zobject (shape : List (String × N))
  | zunion (options : List N)
  | zdiscriminatedUnion (options : List N)
  | zintersection (left : N) (right : N)
  | ztuple (items : List N)
  | zrecord
  | zoptional (inner : N)
  | znullable (inner : N)
  | zdefault (inner : N) (defaultValue : JsonValue)
  | zeffects (inner : N)
  | zlazy (ref : String)
  | zany
  | zunknown
  | znever
  | zvoid
  | zdate
  | zbranded (inner : N)
  | zcatch (inner : N)
  | zpipeline (outType : N)
  | zreadonly (inner : N)
  | zunhandled

/-- A Zod schema node: `_def.description` together with the variant body.
`ZodNativeEnum` entries model the backing enum object in `Object.values`
enumeration order; for a TypeScript numeric enum this object also contains the
reverse mappings (member-name values keyed by the numeric strings). -/
structure SchemaNode where
  desc : Option String
  core : SchemaCoreF SchemaNode

/-- The body type of concrete schema nodes. -/
abbrev SchemaCore := SchemaCoreF SchemaNode

/-- Environment resolving `z.lazy` getters: the getter of a lazy node named
`r` returns `env r`.  Total, because a Zod lazy getter always returns a
schema. -/
def SchemaEnv : Type := String → SchemaNode

/-- The source helper `isOptional`: `ZodOptional` and `ZodDefault` are
optional, `ZodNullable` is explicitly not (the field stays required), and
everything else is not optional. -/
def isOptional (s : SchemaNode) : Bool :=
  match s.core with
  | .zoptional _ => true
  | .zdefault _ _ => true
  | .znullable _ => false
  | _ => false

/-- The description-copying step of the `processObject` field loop:
`if (zodValue._def.description) properties[key].description = ...`.
JavaScript truthiness makes the empty string behave like no description. -/
def applyFieldDesc (d : Option String) (j : JsonSchema) : JsonSchema :=
  match d with
  | some s => if s = "" then j else { j with description := some s }
  | none => j

/-- The final value of `result.format` after the `for`-loop of
`processString`: each handled check overwrites `format`, unhandled kinds leave
it unchanged. -/
def formatOfChecks (checks : List StringCheck) : Option String :=
  checks.foldl
    (fun acc c =>
      match c with
      | .email => some "email"
      | .url => some "uri"
      | .uuid => some "uuid"
      | .datetime => some "date-time"
      | .date => some "date"
      | .time => some "time"
      | .ip v => some (if v = some "v6" then "ipv6" else "ipv4")
      | .otherCheck => acc)
    none

/-- The source `processString`: `{type: 'string'}` plus the format resulting
from the checks loop. -/
def processString (checks : List StringCheck) : JsonSchema :=
  { JsonSchema.empty with type := some "string", format := formatOfChecks checks }

/-- The source `processLiteral`: `{const: value}`. -/
def processLiteral (value : JsonValue) : JsonSchema :=
  { JsonSchema.empty with const := some value }

/-- The source `processEnum`: `{enum: schema._def.values}` (a string enum). -/
def processEnum (values : List String) : JsonSchema :=
  { JsonSchema.empty with enum := some (values.map JsonValue.str) }

/-- The source `processNativeEnum`:
`Object.values(enumObj).filter(v => typeof v === 'string' || typeof v === 'number')`
wrapped as `{enum: values}`. -/
def processNativeEnum (entries : List (String × JsonValue)) : JsonSchema :=
  { JsonSchema.empty with
      enum := some ((entries.map Prod.snd).filter JsonValue.isStringOrNumber) }

/-- The source `processRecord`: records compile to a closed object with no
declared properties. -/
def processRecord : JsonSchema :=
  { JsonSchema.empty with type := some "object", additionalProperties := some false }

/-- Assembling the `processArray` result from the compiled element schema:
`{type: 'array', items}` and, because Anthropic only supports the values 0
and 1, `minItems` is set only when the declared minimum length is defined and
exactly 0 or 1 (`minLength !== undefined && (minLength === 0 || minLength === 1)`). -/
def processArrayResult (itemSchema : JsonSchema) (minLength : Option Int) : JsonSchema :=
  { JsonSchema.empty with
      type := some "array",
      items := some itemSchema,
      minItems :=
        match minLength with
        | some m => if m = 0 ∨ m = 1 then some m else none
        | none => none }

/-- The `required` list accumulated by the `processObject` field loop: the
keys of the shape, in declaration order, whose node is not optional. -/
def requiredKeysOf (shape : List (String × SchemaNode)) : List String :=
  (shape.filter (fun kv => !isOptional kv.2)).map Prod.fst

/-- The object literal returned by `processObject`:
`required` is the accumulated list when non-empty and `undefined` otherwise,
and `additionalProperties` is always `false`. -/
def processObjectResult (shape : List (String × SchemaNode))
    (props : List (String × JsonSchema)) : JsonSchema :=
  { JsonSchema.empty with
      type := some "object",
      properties := some props,
      required :=
        if (requiredKeysOf shape).length > 0 then some (requiredKeysOf shape) else none,
      additionalProperties := some false }

/-- Option-valued map over a list, short-circuiting on the first `none`; the
shape of the per-field / per-option loops of the source once each child
compilation may run out of fuel. -/
def optionMapList (f : α → Option β) : List α → Option (List β)
  | [] => some []
  | a :: l =>
    match f a with
    | none => none
    | some b =>
      match optionMapList f l with
      | none => none
      | some bl => some (b :: bl)

/-- The recursive compiler `processZodType` of `zodToJsonSchema.ts`, indexed
by fuel.  The unused `definitions` parameter of the source is threaded nowhere
and is omitted.  Child nodes are compiled at one unit of fuel less; `none`
means the fuel was exhausted, which on a given input happens for every fuel
exactly when the source recursion does not terminate. -/
def processZodType : Nat → SchemaEnv → SchemaNode → Option JsonSchema
  | 0, _, _ => none
  | n + 1, env, node =>
    match node.core with
    | .zstring checks => some (processString checks)
    | .znumber => some { JsonSchema.empty with type := some "number" }
    | .zbigint => some { JsonSchema.empty with type := some "integer" }
    | .zboolean => some { JsonSchema.empty with type := some "boolean" }
    | .znull => some { JsonSchema.empty with type := some "null" }
    | .zundefined => some { JsonSchema.empty with type := some "null" }
    | .zliteral v => some (processLiteral v)
    | .zenum values => some (processEnum values)
    | .znativeEnum entries => some (processNativeEnum entries)
    | .zarray elem minLength =>
      match processZodType n env elem with
      | none => none
      | some itemSchema => some (processArrayResult itemSchema minLength)
    | .zobject shape =>
      match
        optionMapList
          (fun kv =>
            match processZodType n env kv.2 with
            | none => none
            | some j => some (kv.1, applyFieldDesc kv.2.desc j))
          shape
      with
      | none => none
      | some props => some (processObjectResult shape props)
    | .zunion options =>
      match optionMapList (processZodType n env) options with
      | none => none
      | some opts => some { JsonSchema.empty with anyOf := some opts }
    | .zdiscriminatedUnion options =>
      match optionMapList (processZodType n env) options with
      | none => none
      | some opts => some { JsonSchema.empty with anyOf := some opts }
    | .zintersection left right =>
      match processZodType n env left with
      | none => none
      | some l =>
        match processZodType n env right with
        | none => none
        | some r => some { JsonSchema.empty with allOf := some [l, r] }
    | .ztuple items =>
      match optionMapList (processZodType n env) items with
      | none => none
      | some its =>
        match its with
        | [single] => some { JsonSchema.empty with type := some "array", items := some single }
        | other =>
          some { JsonSchema.empty with
                  type := some "array",
                  items := some { JsonSchema.empty with anyOf := some other } }
    | .zrecord => some processRecord
    | .zoptional inner => processZodType n env inner
    | .znullable inner =>
      match processZodType n env inner with
      | none => none
      | some innerSchema =>
        some { JsonSchema.empty with
                anyOf := some [innerSchema, { JsonSchema.empty with type := some "null" }] }
    | .zdefault inner defaultValue =>
      match processZodType n env inner with
      | none => none
      | some innerSchema => some { innerSchema with default := some defaultValue }
    | .zeffects inner => processZodType n env inner
    | .zlazy ref => processZodType n env (env ref)
    | .zany => some JsonSchema.empty
    | .zunknown => some JsonSchema.empty
    | .znever => some { JsonSchema.empty with type := some "null" }
    | .zvoid => some { JsonSchema.empty with type := some "null" }
    | .zdate => some { JsonSchema.empty with type := some "string", format := some "date-time" }
    | .zbranded inner => processZodType n env inner
    | .zcatch inner => processZodType n env inner
    | .zpipeline outType => processZodType n env outType
    | .zreadonly inner => processZodType n env inner
    | .zunhandled => some JsonSchema.empty

/-- The exported `zodToJsonSchema` just delegates to `processZodType`. -/
def zodToJsonSchema (fuel : Nat) (env : SchemaEnv) (node : SchemaNode) : Option JsonSchema :=
  processZodType fuel env node

/-- The value returned by `createAnthropicOutputFormat`:
`{type: 'json_schema', schema}`. -/
structure AnthropicOutputFormat where
  formatType : String
  schema : JsonSchema

/-- The source `createAnthropicOutputFormat`: compile the schema, and if the
compiled root is not `{type: 'object'}` nest it as the single required
property `result` of a synthetic closed object. -/
def createAnthropicOutputFormat (fuel : Nat) (env : SchemaEnv) (node : SchemaNode) :
    Option AnthropicOutputFormat :=
  match zodToJsonSchema fuel env node with
  | none => none
  | some jsonSchema =>
    if jsonSchema.type ≠ some "object" then
      some ⟨"json_schema",
        { JsonSchema.empty with
            type := some "object",
            properties := some [("result", jsonSchema)],
            required := some ["result"],
            additionalProperties := some false }⟩
    else
      some ⟨"json_schema", jsonSchema⟩

/-! ## Tool execution lifecycle (`src/worker/agents/tools/customTools.ts`)

The body of `executeToolWithDefinition` is

```
toolDef.onStart?.(args);
const result = await toolDef.implementation(args);
toolDef.onComplete?.(args, result);
return result;
```

We model each promise / hook outcome with `Except` and record which of the
three callables were invoked, in order, as an event trace. -/

/-- Invocation events of one `executeToolWithDefinition` run, in call order. -/
inductive TEvent where
  | startCalled
  | implCalled
  | completeCalled
  deriving DecidableEq, Repr

/-- The `ToolDefinition` contract of `src/worker/agents/tools/types.ts`
restricted to its behavioural fields: `implementation` returns a promise that
resolves (`Except.ok`) or rejects (`Except.error`); the optional hooks may
throw synchronously (`Except.error`).  The wire-format fields
(`function.name`, parameter schema, description) play no role in the executed
semantics and are omitted. -/
structure ToolDefinition (ε α ρ : Type) where
  implementation : α → Except ε ρ
  onStart : Option (α → Except ε Unit)
  onComplete : Option (α → ρ → Except ε Unit)

/-- The part of `executeToolWithDefinition` from `await toolDef.implementation(args)`
on, entered with the trace accumulated so far: the `await` rethrows a
rejection, `toolDef.onComplete?.(args, result)` runs only on a resolved
result, and a throwing `onComplete` prevents `return result`. -/
def runImplementationPhase (td : ToolDefinition ε α ρ) (args : α) (tr : List TEvent) :
    List TEvent × Except ε ρ :=
  match td.implementation args with
  | .error e => (tr ++ [TEvent.implCalled], .error e)
  | .ok r =>
    match td.onComplete with
    | none => (tr ++ [TEvent.implCalled], .ok r)
    | some g =>
      match g args r with
      | .error e => (tr ++ [TEvent.implCalled, TEvent.completeCalled], .error e)
      | .ok _ => (tr ++ [TEvent.implCalled, TEvent.completeCalled], .ok r)

/-- The source `executeToolWithDefinition`: `toolDef.onStart?.(args)` runs
first and unguarded — a synchronous throw there rejects the returned promise
before `implementation` is ever called. -/
def executeToolWithDefinition (td : ToolDefinition ε α ρ) (args : α) :
    List TEvent × Except ε ρ :=
  match td.onStart with
  | some f =>
    match f args with
    | .error e => ([TEvent.startCalled], .error e)
    | .ok _ => runImplementationPhase td args [TEvent.startCalled]
  | none => runImplementationPhase td args []

/-! ## Structural containment in a compiled schema

`Subschema s j` holds when `s` occurs in `j`, at any depth, through the
schema-valued fields the compiler can populate (`properties` entries,
`items`, `anyOf` members, `allOf` members). -/

/-- Occurrence of a schema node inside a compiled schema at any depth. -/
inductive Subschema : JsonSchema → JsonSchema → Prop where
  | refl (j : JsonSchema) : Subschema j j
  | inProperties {s j : JsonSchema} (ps : List (String × JsonSchema)) (k : String)
      (v : JsonSchema) : j.properties = some ps → (k, v) ∈ ps → Subschema s v → Subschema s j
  | inItems {s j : JsonSchema} (v : JsonSchema) :
      j.items = some v → Subschema s v → Subschema s j
  | inAnyOf {s j : JsonSchema} (l : List JsonSchema) (v : JsonSchema) :
      j.anyOf = some l → v ∈ l → Subschema s v → Subschema s j
  | inAllOf {s j : JsonSchema} (l : List JsonSchema) (v : JsonSchema) :
      j.allOf = some l → v ∈ l → Subschema s v → Subschema s j

/-- An object node must be closed: `type: object` forces
`additionalProperties: false`. -/
def ClosedAt (s : JsonSchema) : Prop :=
  s.type = some "object" → s.additionalProperties = some false

/-- Every node occurring in `j` is closed when it is an object node. -/
def AllClosed (j : JsonSchema) : Prop :=
  ∀ s, Subschema s j → ClosedAt s

theorem allClosed_of_parts (j : JsonSchema)
    (hc : ClosedAt j)
    (hp : ∀ ps k v, j.properties = some ps → (k, v) ∈ ps → AllClosed v)
    (hi : ∀ v, j.items = some v → AllClosed v)
    (ha : ∀ l v, j.anyOf = some l → v ∈ l → AllClosed v)
    (hb : ∀ l v, j.allOf = some l → v ∈ l → AllClosed v) :
    AllClosed j := by
  intro s hs
  cases hs with
  | refl => exact hc
  | inProperties ps k v hps hmem hsub => exact hp ps k v hps hmem s hsub
  | inItems v hiv hsub => exact hi v hiv s hsub
  | inAnyOf l v hl hmem hsub => exact ha l v hl hmem s hsub
  | inAllOf l v hl hmem hsub => exact hb l v hl hmem s hsub

theorem allClosed_leaf (j : JsonSchema) (hc : ClosedAt j)
    (hp : j.properties = none) (hi : j.items = none)
    (ha : j.anyOf = none) (hb : j.allOf = none) : AllClosed j := by
  apply allClosed_of_parts j hc
  · intro ps k v hps
    rw [hp] at hps
    exact absurd hps (by simp)
  · intro v hiv
    rw [hi] at hiv
    exact absurd hiv (by simp)
  · intro l v hl
    rw [ha] at hl
    exact absurd hl (by simp)
  · intro l v hl
    rw [hb] at hl
    exact absurd hl (by simp)

theorem allClosed_of_same (j j2 : JsonSchema)
    (ht : j2.type = j.type) (hap : j2.additionalProperties = j.additionalProperties)
    (hp : j2.properties = j.properties) (hi : j2.items = j.items)
    (ha : j2.anyOf = j.anyOf) (hb : j2.allOf = j.allOf)
    (h : AllClosed j) : AllClosed j2 := by
  apply allClosed_of_parts
  · intro hty
    rw [hap, ht] at *
    exact h j (Subschema.refl j) (ht ▸ hty)
  · intro ps k v hps hmem
    intro s hsub
    exact h s (Subschema.inProperties ps k v (hp.symm.trans hps) hmem hsub)
  · intro v hiv
    intro s hsub
    exact h s (Subschema.inItems v (hi.symm.trans hiv) hsub)
  · intro l v hl hmem
    intro s hsub
    exact h s (Subschema.inAnyOf l v (ha.symm.trans hl) hmem hsub)
  · intro l v hl hmem
    intro s hsub
    exact h s (Subschema.inAllOf l v (hb.symm.trans hl) hmem hsub)

theorem allClosed_applyFieldDesc (d : Option String) (j : JsonSchema)
    (h : AllClosed j) : AllClosed (applyFieldDesc d j) := by
  cases d with
  | none => simpa [applyFieldDesc] using h
  | some s =>
    by_cases hs : s = ""
    · simpa [applyFieldDesc, hs] using h
    · simp only [applyFieldDesc, hs, if_false]
      exact allClosed_of_same j _ rfl rfl rfl rfl rfl rfl h

theorem allClosed_setDefault (dv : JsonValue) (j : JsonSchema)
    (h : AllClosed j) : AllClosed { j with default := some dv } :=
  allClosed_of_same j _ rfl rfl rfl rfl rfl rfl h

theorem optionMapList_mem {f : α → Option β} : ∀ {l : List α} {bl : List β},
    optionMapList f l = some bl → ∀ b ∈ bl, ∃ a ∈ l, f a = some b := by
  intro l
  induction l with
  | nil =>
    intro bl h b hb
    simp [optionMapList] at h
    subst h
    simp at hb
  | cons a l ih =>
    intro bl h b hb
    simp only [optionMapList] at h
    cases hfa : f a with
    | none => rw [hfa] at h; simp at h
    | some b0 =>
      rw [hfa] at h
      cases hrest : optionMapList f l with
      | none => rw [hrest] at h; simp at h
      | some bl0 =>
        rw [hrest] at h
        simp at h
        subst h
        rcases List.mem_cons.mp hb with hb2 | hb2
        · exact ⟨a, List.mem_cons_self a l, hb2 ▸ hfa⟩
        · rcases ih hrest b hb2 with ⟨a2, ha2, hfa2⟩
          exact ⟨a2, List.mem_cons_of_mem a ha2, hfa2⟩

theorem allClosed_scalar (j : JsonSchema) (hty : ¬ j.type = some "object")
    (hp : j.properties = none) (hi : j.items = none)
    (ha : j.anyOf = none) (hb : j.allOf = none) : AllClosed j :=
  allClosed_leaf j (fun ht => absurd ht hty) hp hi ha hb

/-- Every schema the compiler can emit keeps object nodes closed, at every
depth and for every fuel budget on which it succeeds. -/
theorem processZodType_allClosed : ∀ (fuel : Nat) (env : SchemaEnv) (node : SchemaNode)
    (j : JsonSchema), processZodType fuel env node = some j → AllClosed j := by
  intro fuel
  induction fuel with
  | zero =>
    intro env node j h
    simp [processZodType] at h
  | succ n ih =>
    intro env node j h
    obtain ⟨d, core⟩ := node
    cases core with
    | zstring checks =>
      simp only [processZodType, Option.some.injEq] at h
      subst h
      exact allClosed_scalar _ (by simp [processString, JsonSchema.empty]) rfl rfl rfl rfl
    | znumber =>
      simp only [processZodType, Option.some.injEq] at h
      subst h
      exact allClosed_scalar _ (by simp [JsonSchema.empty]) rfl rfl rfl rfl
    | zbigint =>
      simp only [processZodType, Option.some.injEq] at h
      subst h
      exact allClosed_scalar _ (by simp [JsonSchema.empty]) rfl rfl rfl rfl
    | zboolean =>
      simp only [processZodType, Option.some.injEq] at h
      subst h
      exact allClosed_scalar _ (by simp [JsonSchema.empty]) rfl rfl rfl rfl
    | znull =>
      simp only [processZodType, Option.some.injEq] at h
      subst h
      exact allClosed_scalar _ (by simp [JsonSchema.empty]) rfl rfl rfl rfl
    | zundefined =>
      simp only [processZodType, Option.some.injEq] at h
      subst h
      exact allClosed_scalar _ (by simp [JsonSchema.empty]) rfl rfl rfl rfl
    | zliteral v =>
      simp only [processZodType, Option.some.injEq] at h
      subst h
      exact allClosed_scalar _ (by simp [processLiteral, JsonSchema.empty]) rfl rfl rfl rfl
    | zenum values =>
      simp only [processZodType, Option.some.injEq] at h
      subst h
      exact allClosed_scalar _ (by simp [processEnum, JsonSchema.empty]) rfl rfl rfl rfl
    | znativeEnum entries =>
      simp only [processZodType, Option.some.injEq] at h
      subst h
      exact allClosed_scalar _ (by simp [processNativeEnum, JsonSchema.empty]) rfl rfl rfl rfl
    | zarray elem minLength =>
      simp only [processZodType] at h
      split at h
      · exact absurd h (by simp)
      · rename_i itemSchema hel
        simp only [Option.some.injEq] at h
        subst h
        apply allClosed_of_parts
        · intro ht
          exact absurd ht (by simp [processArrayResult, JsonSchema.empty])
        · intro ps k v hps _
          exact absurd hps (by simp [processArrayResult, JsonSchema.empty])
        · intro v hiv
          have hv : itemSchema = v := by
            simpa [processArrayResult, JsonSchema.empty] using hiv
          subst hv
          exact ih env elem itemSchema hel
        · intro l v hl
          exact absurd hl (by simp [processArrayResult, JsonSchema.empty])
        · intro l v hl
          exact absurd hl (by simp [processArrayResult, JsonSchema.empty])
    | zobject shape =>
      simp only [processZodType] at h
      split at h
      · exact absurd h (by simp)
      · rename_i props hm
        simp only [Option.some.injEq] at h
        subst h
        apply allClosed_of_parts
        · intro _
          rfl
        · intro ps k v hps hmem
          have hps2 : ps = props := by
            simpa [processObjectResult, JsonSchema.empty] using hps.symm
          subst hps2
          obtain ⟨kv, _, hfkv⟩ := optionMapList_mem hm (k, v) hmem
          split at hfkv
          · exact absurd hfkv (by simp)
          · rename_i jj hc
            simp only [Option.some.injEq, Prod.mk.injEq] at hfkv
            obtain ⟨_, hv⟩ := hfkv
            subst hv
            exact allClosed_applyFieldDesc _ _ (ih env kv.2 jj hc)
        · intro v hiv
          exact absurd hiv (by simp [processObjectResult, JsonSchema.empty])
        · intro l v hl
          exact absurd hl (by simp [processObjectResult, JsonSchema.empty])
        · intro l v hl
          exact absurd hl (by simp [processObjectResult, JsonSchema.empty])
    | zunion options =>
      simp only [processZodType] at h
      split at h
      · exact absurd h (by simp)
      · rename_i opts hm
        simp only [Option.some.injEq] at h
        subst h
        apply allClosed_of_parts
        · intro ht
          exact absurd ht (by simp [JsonSchema.empty])
        · intro ps k v hps _
          exact absurd hps (by simp [JsonSchema.empty])
        · intro v hiv
          exact absurd hiv (by simp [JsonSchema.empty])
        · intro l v hl hmem
          have hl2 : l = opts := by
            simpa [JsonSchema.empty] using hl.symm
          subst hl2
          obtain ⟨a, _, hfa⟩ := optionMapList_mem hm v hmem
          exact ih env a v hfa
        · intro l v hl
          exact absurd hl (by simp [JsonSchema.empty])
    | zdiscriminatedUnion options =>
      simp only [processZodType] at h
      split at h
      · exact absurd h (by simp)
      · rename_i opts hm
        simp only [Option.some.injEq] at h
        subst h
        apply allClosed_of_parts
        · intro ht
          exact absurd ht (by simp [JsonSchema.empty])
        · intro ps k v hps _
          exact absurd hps (by simp [JsonSchema.empty])
        · intro v hiv
          exact absurd hiv (by simp [JsonSchema.empty])
        · intro l v hl hmem
          have hl2 : l = opts := by
            simpa [JsonSchema.empty] using hl.symm
          subst hl2
          obtain ⟨a, _, hfa⟩ := optionMapList_mem hm v hmem
          exact ih env a v hfa
        · intro l v hl
          exact absurd hl (by simp [JsonSchema.empty])
    | zintersection left right =>
      simp only [processZodType] at h
      split at h
      · exact absurd h (by simp)
      · rename_i l0 hl0
        split at h
        · exact absurd h (by simp)
        · rename_i r0 hr0
          simp only [Option.some.injEq] at h
          subst h
          apply allClosed_of_parts
          · intro ht
            exact absurd ht (by simp [JsonSchema.empty])
          · intro ps k v hps _
            exact absurd hps (by simp [JsonSchema.empty])
          · intro v hiv
            exact absurd hiv (by simp [JsonSchema.empty])
          · intro l v hl hmem
            have hl2 : l = [l0, r0] := by
              simpa [JsonSchema.empty] using hl.symm
            subst hl2
            exact absurd hl (by simp [JsonSchema.empty])
          · intro l v hl hmem
            have hl2 : l = [l0, r0] := by
              simpa [JsonSchema.empty] using hl.symm
            subst hl2
            rcases List.mem_cons.mp hmem with hv | hv
            · subst hv
              exact ih env left v hl0
            · have hv2 : v = r0 := by simpa using hv
              subst hv2
              exact ih env right v hr0
    | ztuple items =>
      simp only [processZodType] at h
      split at h
      · exact absurd h (by simp)
      · rename_i its hm
        split at h
        · rename_i single
          simp only [Option.some.injEq] at h
          subst h
          apply allClosed_of_parts
          · intro ht
            exact absurd ht (by simp [JsonSchema.empty])
          · intro ps k v hps _
            exact absurd hps (by simp [JsonSchema.empty])
          · intro v hiv
            have hv : single = v := by
              simpa [JsonSchema.empty] using hiv
            subst hv
            obtain ⟨a, _, hfa⟩ := optionMapList_mem hm single (by simp)
            exact ih env a single hfa
          · intro l v hl
            exact absurd hl (by simp [JsonSchema.empty])
          · intro l v hl
            exact absurd hl (by simp [JsonSchema.empty])
        · simp only [Option.some.injEq] at h
          subst h
          apply allClosed_of_parts
          · intro ht
            exact absurd ht (by simp [JsonSchema.empty])
          · intro ps k v hps _
            exact absurd hps (by simp [JsonSchema.empty])
          · intro v hiv
            have hv : { JsonSchema.empty with anyOf := some its } = v := by
              simpa [JsonSchema.empty] using hiv
            subst hv
            apply allClosed_of_parts
            · intro ht
              exact absurd ht (by simp [JsonSchema.empty])
            · intro ps k w hps _
              exact absurd hps (by simp [JsonSchema.empty])
            · intro w hiw
              exact absurd hiw (by simp [JsonSchema.empty])
            · intro l w hl hmem
              have hl2 : l = its := by
                simpa [JsonSchema.empty] using hl.symm
              subst hl2
              obtain ⟨a, _, hfa⟩ := optionMapList_mem hm w hmem
              exact ih env a w hfa
            · intro l w hl
              exact absurd hl (by simp [JsonSchema.empty])
          · intro l v hl
            exact absurd hl (by simp [JsonSchema.empty])
          · intro l v hl
            exact absurd hl (by simp [JsonSchema.empty])
    | zrecord =>
      simp only [processZodType, Option.some.injEq] at h
      subst h
      exact allClosed_leaf _ (fun _ => rfl) rfl rfl rfl rfl
    | zoptional inner =>
      simp only [processZodType] at h
      exact ih env inner j h
    | znullable inner =>
      simp only [processZodType] at h
      split at h
      · exact absurd h (by simp)
      · rename_i innerSchema hin
        simp only [Option.some.injEq] at h
        subst h
        apply allClosed_of_parts
        · intro ht
          exact absurd ht (by simp [JsonSchema.empty])
        · intro ps k v hps _
          exact absurd hps (by simp [JsonSchema.empty])
        · intro v hiv
          exact absurd hiv (by simp [JsonSchema.empty])
        · intro l v hl hmem
          have hl2 : l = [innerSchema, { JsonSchema.empty with type := some "null" }] := by
            simpa [JsonSchema.empty] using hl.symm
          subst hl2
          rcases List.mem_cons.mp hmem with hv | hv
          · subst hv
            exact ih env inner v hin
          · have hv2 : v = { JsonSchema.empty with type := some "null" } := by simpa using hv
            subst hv2
            exact allClosed_scalar _ (by simp [JsonSchema.empty]) rfl rfl rfl rfl
        · intro l v hl
          exact absurd hl (by simp [JsonSchema.empty])
    | zdefault inner defaultValue =>
      simp only [processZodType] at h
      split at h
      · exact absurd h (by simp)
      · rename_i innerSchema hin
        simp only [Option.some.injEq] at h
        subst h
        exact allClosed_setDefault defaultValue innerSchema (ih env inner innerSchema hin)
    | zeffects inner =>
      simp only [processZodType] at h
      exact ih env inner j h
    | zlazy ref =>
      simp only [processZodType] at h
      exact ih env (env ref) j h
    | zany =>
      simp only [processZodType, Option.some.injEq] at h
      subst h
      exact allClosed_scalar _ (by simp [JsonSchema.empty]) rfl rfl rfl rfl
    | zunknown =>
      simp only [processZodType, Option.some.injEq] at h
      subst h
      exact allClosed_scalar _ (by simp [JsonSchema.empty]) rfl rfl rfl rfl
    | znever =>
      simp only [processZodType, Option.some.injEq] at h
      subst h
      exact allClosed_scalar _ (by simp [JsonSchema.empty]) rfl rfl rfl rfl
    | zvoid =>
      simp only [processZodType, Option.some.injEq] at h
      subst h
      exact allClosed_scalar _ (by simp [JsonSchema.empty]) rfl rfl rfl rfl
    | zdate =>
      simp only [processZodType, Option.some.injEq] at h
      subst h
      exact allClosed_scalar _ (by simp [JsonSchema.empty]) rfl rfl rfl rfl
    | zbranded inner =>
      simp only [processZodType] at h
      exact ih env inner j h
    | zcatch inner =>
      simp only [processZodType] at h
      exact ih env inner j h
    | zpipeline outType =>
      simp only [processZodType] at h
      exact ih env outType j h
    | zreadonly inner =>
      simp only [processZodType] at h
      exact ih env inner j h
    | zunhandled =>
      simp only [processZodType, Option.some.injEq] at h
      subst h
      exact allClosed_scalar _ (by simp [JsonSchema.empty]) rfl rfl rfl rfl

/-- One iteration of the `processObject` field loop: compile the field's node
and copy its description when present. -/
def compileField (n : Nat) (env : SchemaEnv) (kv : String × SchemaNode) :
    Option (String × JsonSchema) :=
  match processZodType n env kv.2 with
  | none => none
  | some j => some (kv.1, applyFieldDesc kv.2.desc j)

/-- The object case of the compiler, written through the named helpers. -/
theorem processZodType_object_eq (n : Nat) (env : SchemaEnv) (d : Option String)
    (shape : List (String × SchemaNode)) :
    processZodType (n + 1) env ⟨d, .zobject shape⟩ =
      match optionMapList (compileField n env) shape with
      | none => none
      | some props => some (processObjectResult shape props) := rfl

/-- A list of entries with pairwise distinct keys binds each key to at most
one value. -/
theorem nodupKeys_eq {β : Type} : ∀ {l : List (String × β)},
    (l.map Prod.fst).Nodup → ∀ {k : String} {v w : β}, (k, v) ∈ l → (k, w) ∈ l → v = w := by
  intro l
  induction l with
  | nil =>
    intro _ k v w hv _
    simp at hv
  | cons kv rest ihl =>
    intro hnd k v w hv hw
    obtain ⟨k0, v0⟩ := kv
    have hnd2 : (∀ x : β, (k0, x) ∉ rest) ∧ (rest.map Prod.fst).Nodup := by
      simpa using hnd
    rcases List.mem_cons.mp hv with hv1 | hv1
    · rcases List.mem_cons.mp hw with hw1 | hw1
      · have h1 : v = v0 := (Prod.mk.injEq _ _ _ _ ▸ hv1).2
        have h2 : w = v0 := (Prod.mk.injEq _ _ _ _ ▸ hw1).2
        rw [h1, h2]
      · exfalso
        have hk : k = k0 := (Prod.mk.injEq _ _ _ _ ▸ hv1).1
        exact hnd2.1 w (hk ▸ hw1)
    · rcases List.mem_cons.mp hw with hw1 | hw1
      · exfalso
        have hk : k = k0 := (Prod.mk.injEq _ _ _ _ ▸ hw1).1
        exact hnd2.1 v (hk ▸ hv1)
      · exact ihl hnd2.2 hv1 hw1

/-- When the field loop succeeds on a shape with pairwise distinct keys, each
field key looks up to exactly the compiled field node (compiled inner schema
with the description-copy step applied). -/
theorem optionMapList_compileField_lookup (n : Nat) (env : SchemaEnv) :
    ∀ (shape : List (String × SchemaNode)) (props : List (String × JsonSchema)),
    optionMapList (compileField n env) shape = some props →
    (shape.map Prod.fst).Nodup →
    ∀ (k : String) (v : SchemaNode), (k, v) ∈ shape →
    ∃ jj, processZodType n env v = some jj ∧
      props.lookup k = some (applyFieldDesc v.desc jj) := by
  intro shape
  induction shape with
  | nil =>
    intro props _ _ k v hmem
    simp at hmem
  | cons kv rest ihs =>
    intro props h hnd k v hmem
    obtain ⟨k0, v0⟩ := kv
    have hnd2 : (∀ x : SchemaNode, (k0, x) ∉ rest) ∧ (rest.map Prod.fst).Nodup := by
      simpa using hnd
    simp only [optionMapList] at h
    split at h
    · exact absurd h (by simp)
    · rename_i b hfb
      split at h
      · exact absurd h (by simp)
      · rename_i pr hpr
        simp only [Option.some.injEq] at h
        subst h
        simp only [compileField] at hfb
        split at hfb
        · exact absurd hfb (by simp)
        · rename_i jj0 hjj0
          simp only [Option.some.injEq] at hfb
          subst hfb
          rcases List.mem_cons.mp hmem with hv1 | hv1
          · have hk : k = k0 := (Prod.mk.injEq _ _ _ _ ▸ hv1).1
            have hvv : v = v0 := (Prod.mk.injEq _ _ _ _ ▸ hv1).2
            subst hk
            subst hvv
            refine ⟨jj0, hjj0, ?_⟩
            simp [List.lookup]
          · have hk : ¬(k = k0) := by
              intro hkk
              exact hnd2.1 v (hkk ▸ hv1)
            obtain ⟨jj, hjj, hlook⟩ := ihs pr hpr hnd2.2 k v hv1
            refine ⟨jj, hjj, ?_⟩
            simpa [List.lookup, beq_false_of_ne hk] using hlook

/-- A non-optional field's key is in the accumulated `required` list. -/
theorem mem_requiredKeysOf {shape : List (String × SchemaNode)} {k : String}
    {v : SchemaNode} (hmem : (k, v) ∈ shape) (hreq : isOptional v = false) :
    k ∈ requiredKeysOf shape :=
  List.mem_map.mpr ⟨(k, v), List.mem_filter.mpr ⟨hmem, by simp [hreq]⟩, rfl⟩

/-- An optional field's key is not in the accumulated `required` list when the
shape keys are pairwise distinct. -/
theorem not_mem_requiredKeysOf {shape : List (String × SchemaNode)} {k : String}
    {v : SchemaNode} (hnd : (shape.map Prod.fst).Nodup)
    (hmem : (k, v) ∈ shape) (hopt : isOptional v = true) :
    k ∉ requiredKeysOf shape := by
  intro hk
  obtain ⟨⟨k2, w⟩, hw, hk2⟩ := List.mem_map.mp hk
  obtain ⟨hwmem, hwopt⟩ := List.mem_filter.mp hw
  have hk2e : k2 = k := hk2
  subst hk2e
  have hvw : v = w := nodupKeys_eq hnd hmem hwmem
  subst hvw
  rw [hopt] at hwopt
  simp at hwopt

/-! ## Witness fixtures -/

/-- Environment mapping every lazy reference to `z.any()`; used where no lazy
node occurs. -/
def trivialEnv : SchemaEnv := fun _ => ⟨none, .zany⟩

/-- The node `z.string()`. -/
def strNode : SchemaNode := ⟨none, .zstring []⟩

/-- The node `z.record(...)`. -/
def recordNode : SchemaNode := ⟨none, .zrecord⟩

/-- The node `z.object({m: z.record(...)})`. -/
def objectWithRecord : SchemaNode := ⟨none, .zobject [("m", recordNode)]⟩

/-- The compiled form of `objectWithRecord`. -/
def objectWithRecordCompiled : JsonSchema :=
  processObjectResult [("m", recordNode)] [("m", processRecord)]

/-! ## Claim C1 -/

/-- C1: for every SchemaNode tree on which the compiler terminates (some fuel
returns a result), every object node of the compiled result — the root, the
object emitted for a record, and any node at any nesting depth — has
`additionalProperties = false`. -/
theorem c1_compiled_object_nodes_closed (fuel : Nat) (env : SchemaEnv) (node : SchemaNode)
    (j s : JsonSchema) (hcompile : processZodType fuel env node = some j)
    (hsub : Subschema s j) (hobj : s.type = some "object") :
    s.additionalProperties = some false :=
  processZodType_allClosed fuel env node j hcompile s hsub hobj

/-- Witness for C1: an object containing a record, compiled concretely; the
nested record node compiles to an object node and it carries
`additionalProperties = false`. -/
theorem c1_compiled_object_nodes_closed_witness :
    processZodType 2 trivialEnv objectWithRecord = some objectWithRecordCompiled ∧
    processRecord.additionalProperties = some false := by
  constructor
  · rfl
  · exact c1_compiled_object_nodes_closed 2 trivialEnv objectWithRecord
      objectWithRecordCompiled processRecord rfl
      (Subschema.inProperties [("m", processRecord)] "m" processRecord rfl
        (List.Mem.head _) (Subschema.refl _)) rfl

/-! ## Claim C5 -/

/-- The backing object of the TypeScript numeric enum `enum E {A = 0, B = 1}`
in `Object.values` enumeration order: integer-like keys (the reverse
mappings `0 → "A"`, `1 → "B"`) come first, then the member keys
(`A → 0`, `B → 1`). -/
def numericEnumEntries : List (String × JsonValue) :=
  [("0", .str "A"), ("1", .str "B"), ("A", .num 0), ("B", .num 1)]

/-- C5 (code bug): for the numeric native enum `enum E {A = 0, B = 1}` the
compiler emits `enum: ["A", "B", 0, 1]` — the `typeof`-based filter keeps the
member names coming from the reverse mappings, contradicting the code's own
comment ("Get only the values (not the reverse mappings for numeric enums)"),
the spec, and the claim, which ask for `[0, 1]` only. -/
theorem c5_numeric_native_enum_keeps_reverse_mappings :
    processZodType 1 trivialEnv ⟨none, .znativeEnum numericEnumEntries⟩ =
      some { JsonSchema.empty with
              enum := some [.str "A", .str "B", .num 0, .num 1] } ∧
    ¬((numericEnumEntries.map Prod.snd).filter JsonValue.isStringOrNumber
        = [JsonValue.num 0, JsonValue.num 1]) := by
  exact ⟨rfl, by decide⟩

/-! ## Claim C6 -/

/-- C6: whenever the compiled root is not an object node, the response-format
adapter wraps it as a synthetic object with the single required property
`result` and `additionalProperties: false`; in particular a plain string
schema yields exactly the claimed wrapper. -/
theorem c6_wrap_non_object_root (fuel : Nat) (env : SchemaEnv) (node : SchemaNode)
    (js : JsonSchema) :
    (processZodType fuel env node = some js → ¬(js.type = some "object") →
      createAnthropicOutputFormat fuel env node = some ⟨"json_schema",
        { JsonSchema.empty with
            type := some "object",
            properties := some [("result", js)],
            required := some ["result"],
            additionalProperties := some false }⟩) ∧
    createAnthropicOutputFormat 1 env strNode = some ⟨"json_schema",
      { JsonSchema.empty with
          type := some "object",
          properties := some [("result", { JsonSchema.empty with type := some "string" })],
          required := some ["result"],
          additionalProperties := some false }⟩ := by
  constructor
  · intro h hne
    unfold createAnthropicOutputFormat zodToJsonSchema
    rw [h]
    simp only [ne_eq, hne, not_false_eq_true, if_true]
  · rfl

/-- Witness for C6: a boolean root is not an object node and gets wrapped. -/
theorem c6_wrap_non_object_root_witness :
    createAnthropicOutputFormat 1 trivialEnv ⟨none, .zboolean⟩ = some ⟨"json_schema",
      { JsonSchema.empty with
          type := some "object",
          properties := some [("result", { JsonSchema.empty with type := some "boolean" })],
          required := some ["result"],
          additionalProperties := some false }⟩ :=
  (c6_wrap_non_object_root 1 trivialEnv ⟨none, .zboolean⟩
      { JsonSchema.empty with type := some "boolean" }).1 rfl (by simp [JsonSchema.empty])

/-! ## Claim C8 -/

/-- C8: the compiled array shape has `minItems` equal to the declared minimum
length exactly when that minimum is 0 or 1, and no `minItems` field when the
minimum is 2 or more or absent. -/
theorem c8_array_minItems (fuel : Nat) (env : SchemaEnv) (d : Option String)
    (elem : SchemaNode) (ml : Option Int) (j : JsonSchema)
    (h : processZodType fuel env ⟨d, .zarray elem ml⟩ = some j) :
    (ml = some 0 → j.minItems = some 0) ∧
    (ml = some 1 → j.minItems = some 1) ∧
    (∀ m : Int, ml = some m → 2 ≤ m → j.minItems = none) ∧
    (ml = none → j.minItems = none) := by
  cases fuel with
  | zero => simp [processZodType] at h
  | succ n =>
    simp only [processZodType] at h
    split at h
    · exact absurd h (by simp)
    · rename_i itemSchema hel
      simp only [Option.some.injEq] at h
      subst h
      refine ⟨?_, ?_, ?_, ?_⟩
      · intro h0
        subst h0
        simp [processArrayResult, JsonSchema.empty]
      · intro h1
        subst h1
        simp [processArrayResult, JsonSchema.empty]
      · intro m hm h2
        subst hm
        have hne : ¬(m = 0 ∨ m = 1) := by omega
        simp [processArrayResult, JsonSchema.empty, hne]
      · intro hn
        subst hn
        simp [processArrayResult, JsonSchema.empty]

/-- Witness for C8: concrete arrays with minimum length 0, 1, 2 and absent. -/
theorem c8_array_minItems_witness :
    (processArrayResult (processString []) (some 0)).minItems = some 0 ∧
    (processArrayResult (processString []) (some 1)).minItems = some 1 ∧
    (processArrayResult (processString []) (some 2)).minItems = none ∧
    (processArrayResult (processString []) none).minItems = none := by
  refine ⟨?_, ?_, ?_, ?_⟩
  · exact (c8_array_minItems 2 trivialEnv none strNode (some 0) _ rfl).1 rfl
  · exact (c8_array_minItems 2 trivialEnv none strNode (some 1) _ rfl).2.1 rfl
  · exact (c8_array_minItems 2 trivialEnv none strNode (some 2) _ rfl).2.2.1 2 rfl (by norm_num)
  · exact (c8_array_minItems 2 trivialEnv none strNode none _ rfl).2.2.2 rfl

/-! ## Claim C10 -/

/-- C10: when every field of an object shape is optional- or default-wrapped,
the compiled object carries no `required` field at all rather than an empty
list. -/
theorem c10_all_optional_required_omitted (fuel : Nat) (env : SchemaEnv)
    (dObj : Option String) (shape : List (String × SchemaNode)) (j : JsonSchema)
    (hall : ∀ kv ∈ shape, isOptional kv.2 = true)
    (h : processZodType fuel env ⟨dObj, .zobject shape⟩ = some j) :
    j.required = none := by
  cases fuel with
  | zero => simp [processZodType] at h
  | succ n =>
    rw [processZodType_object_eq] at h
    split at h
    · exact absurd h (by simp)
    · rename_i props hm
      simp only [Option.some.injEq] at h
      subst h
      have hfilter : shape.filter (fun kv => !isOptional kv.2) = [] := by
        apply List.filter_eq_nil_iff.mpr
        intro kv hkv
        simp [hall kv hkv]
      have hempty : requiredKeysOf shape = [] := by
        simp [requiredKeysOf, hfilter]
      simp [processObjectResult, hempty]

/-- Witness for C10: an object whose single field is optional compiles with
`required` absent. -/
theorem c10_all_optional_required_omitted_witness :
    processZodType 3 trivialEnv ⟨none, .zobject [("a", ⟨none, .zoptional strNode⟩)]⟩ =
      some (processObjectResult [("a", ⟨none, .zoptional strNode⟩)]
              [("a", processString [])]) ∧
    (processObjectResult [("a", ⟨none, .zoptional strNode⟩)]
        [("a", processString [])]).required = none := by
  constructor
  · rfl
  · exact c10_all_optional_required_omitted 3 trivialEnv none
      [("a", ⟨none, .zoptional strNode⟩)] _ (by intro kv hkv; simp at hkv; rw [hkv]; rfl) rfl

/-! ## Claim C2 -/

/-- A nullable field with a description: `z.object({a: z.string().nullable().describe('x')})`. -/
def nullableDescribedObject : SchemaNode :=
  ⟨none, .zobject [("a", ⟨some "x", .znullable strNode⟩)]⟩

/-- The compiled field node the compiler actually produces for the field `a`
of `nullableDescribedObject`: the nullable disjunction plus the copied
description. -/
def nullableDescribedFieldCompiled : JsonSchema :=
  { JsonSchema.empty with
      anyOf := some [{ JsonSchema.empty with type := some "string" },
                     { JsonSchema.empty with type := some "null" }],
      description := some "x" }

/-- The field shape the claim demands, with nothing but the `anyOf`. -/
def nullableFieldClaimed : JsonSchema :=
  { JsonSchema.empty with
      anyOf := some [{ JsonSchema.empty with type := some "string" },
                     { JsonSchema.empty with type := some "null" }] }

/-- Counterexample to C2 as stated: for the object whose nullable field
carries a description, the compiled field is the `anyOf` shape with the
description copied onto it, which is not exactly
`{anyOf: [compiledInner, {type: "null"}]}`. -/
theorem c2_counterexample_description_copied :
    processZodType 3 trivialEnv nullableDescribedObject =
      some (processObjectResult [("a", ⟨some "x", .znullable strNode⟩)]
              [("a", nullableDescribedFieldCompiled)]) ∧
    nullableDescribedFieldCompiled ≠ nullableFieldClaimed := by
  constructor
  · rfl
  · intro hEq
    have hd := congrArg JsonSchema.description hEq
    simp [nullableDescribedFieldCompiled, nullableFieldClaimed, JsonSchema.empty] at hd

/-- C2 (amended): for every object schema with a nullable-wrapped field (keys
pairwise distinct), the field's key appears in `required`, and the field
compiles to exactly `{anyOf: [compiledInner, {type: "null"}]}` with the
field's description additionally copied onto it when one is present
(`applyFieldDesc`). -/
theorem c2_nullable_field_required_and_anyOf (fuel : Nat) (env : SchemaEnv)
    (dObj d : Option String) (shape : List (String × SchemaNode)) (inner : SchemaNode)
    (k : String) (j : JsonSchema)
    (hnd : (shape.map Prod.fst).Nodup)
    (hmem : (k, ⟨d, .znullable inner⟩) ∈ shape)
    (h : processZodType fuel env ⟨dObj, .zobject shape⟩ = some j) :
    (∃ req, j.required = some req ∧ k ∈ req) ∧
    (∃ m ji props, processZodType m env inner = some ji ∧ j.properties = some props ∧
      props.lookup k = some (applyFieldDesc d
        { JsonSchema.empty with
            anyOf := some [ji, { JsonSchema.empty with type := some "null" }] })) := by
  cases fuel with
  | zero => simp [processZodType] at h
  | succ n =>
    rw [processZodType_object_eq] at h
    split at h
    · exact absurd h (by simp)
    · rename_i props hm
      simp only [Option.some.injEq] at h
      subst h
      constructor
      · have hkreq : k ∈ requiredKeysOf shape := mem_requiredKeysOf hmem rfl
        refine ⟨requiredKeysOf shape, ?_, hkreq⟩
        have hlen : (requiredKeysOf shape).length > 0 :=
          List.length_pos.mpr (List.ne_nil_of_mem hkreq)
        simp [processObjectResult, hlen]
      · obtain ⟨jj, hjj, hlook⟩ :=
          optionMapList_compileField_lookup n env shape props hm hnd k _ hmem
        cases n with
        | zero => simp [processZodType] at hjj
        | succ m =>
          simp only [processZodType] at hjj
          split at hjj
          · exact absurd hjj (by simp)
          · rename_i ji hji
            simp only [Option.some.injEq] at hjj
            subst hjj
            exact ⟨m, ji, props, hji, rfl, hlook⟩

/-- Witness for the amended C2: a described nullable string field is required
and compiles to the disjunction with the description copied. -/
theorem c2_nullable_field_required_and_anyOf_witness :
    (∃ req, (processObjectResult [("a", ⟨some "x", .znullable strNode⟩)]
        [("a", nullableDescribedFieldCompiled)]).required = some req ∧ "a" ∈ req) ∧
    (∃ m ji props, processZodType m trivialEnv strNode = some ji ∧
      (processObjectResult [("a", ⟨some "x", .znullable strNode⟩)]
          [("a", nullableDescribedFieldCompiled)]).properties = some props ∧
      props.lookup "a" = some (applyFieldDesc (some "x")
        { JsonSchema.empty with
            anyOf := some [ji, { JsonSchema.empty with type := some "null" }] })) :=
  c2_nullable_field_required_and_anyOf 3 trivialEnv none (some "x")
    [("a", ⟨some "x", .znullable strNode⟩)] strNode "a"
    (processObjectResult [("a", ⟨some "x", .znullable strNode⟩)]
        [("a", nullableDescribedFieldCompiled)])
    (by simp) (List.Mem.head _) rfl

/-! ## Claim C7 -/

/-- C7: for every object schema with an optional-wrapped or default-wrapped
field (keys pairwise distinct), the field's key is absent from `required`,
the field compiles to its inner type (with the description-copy step applied),
and a default-wrapped field additionally carries the materialized default
value on its compiled node. -/
theorem c7_optional_default_fields (fuel : Nat) (env : SchemaEnv)
    (dObj d : Option String) (shape : List (String × SchemaNode))
    (k : String) (j : JsonSchema)
    (hnd : (shape.map Prod.fst).Nodup)
    (h : processZodType fuel env ⟨dObj, .zobject shape⟩ = some j) :
    (∀ inner : SchemaNode, (k, ⟨d, .zoptional inner⟩) ∈ shape →
      (∀ req, j.required = some req → k ∉ req) ∧
      ∃ m ji props, processZodType m env inner = some ji ∧ j.properties = some props ∧
        props.lookup k = some (applyFieldDesc d ji)) ∧
    (∀ (inner : SchemaNode) (dv : JsonValue), (k, ⟨d, .zdefault inner dv⟩) ∈ shape →
      (∀ req, j.required = some req → k ∉ req) ∧
      ∃ m ji props, processZodType m env inner = some ji ∧ j.properties = some props ∧
        props.lookup k = some (applyFieldDesc d { ji with default := some dv })) := by
  cases fuel with
  | zero => simp [processZodType] at h
  | succ n =>
    rw [processZodType_object_eq] at h
    split at h
    · exact absurd h (by simp)
    · rename_i props hm
      simp only [Option.some.injEq] at h
      subst h
      constructor
      · intro inner hmem
        constructor
        · intro req hreq
          have hnotin : k ∉ requiredKeysOf shape := not_mem_requiredKeysOf hnd hmem rfl
          have hreqval : (processObjectResult shape props).required =
              (if (requiredKeysOf shape).length > 0 then some (requiredKeysOf shape) else none) := rfl
          rw [hreqval] at hreq
          split at hreq
          · simp only [Option.some.injEq] at hreq
            rw [← hreq]
            exact hnotin
          · exact absurd hreq (by simp)
        · obtain ⟨jj, hjj, hlook⟩ :=
            optionMapList_compileField_lookup n env shape props hm hnd k _ hmem
          cases n with
          | zero => simp [processZodType] at hjj
          | succ m => exact ⟨m, jj, props, hjj, rfl, hlook⟩
      · intro inner dv hmem
        constructor
        · intro req hreq
          have hnotin : k ∉ requiredKeysOf shape := not_mem_requiredKeysOf hnd hmem rfl
          have hreqval : (processObjectResult shape props).required =
              (if (requiredKeysOf shape).length > 0 then some (requiredKeysOf shape) else none) := rfl
          rw [hreqval] at hreq
          split at hreq
          · simp only [Option.some.injEq] at hreq
            rw [← hreq]
            exact hnotin
          · exact absurd hreq (by simp)
        · obtain ⟨jj, hjj, hlook⟩ :=
            optionMapList_compileField_lookup n env shape props hm hnd k _ hmem
          cases n with
          | zero => simp [processZodType] at hjj
          | succ m =>
            simp only [processZodType] at hjj
            split at hjj
            · exact absurd hjj (by simp)
            · rename_i ji hji
              simp only [Option.some.injEq] at hjj
              subst hjj
              exact ⟨m, ji, props, hji, rfl, hlook⟩

/-! ## Claim C9 -/

mutual

/-- A schema tree with no lazy wrapper anywhere. -/
def lazyFree : SchemaNode → Bool
  | ⟨_, c⟩ => coreLazyFree c
termination_by s => sizeOf s

/-- Lazy-freeness of a node body. -/
def coreLazyFree : SchemaCore → Bool
  | .zlazy _ => false
  | .zarray e _ => lazyFree e
  | .zobject shape => fieldsLazyFree shape
  | .zunion os => nodesLazyFree os
  | .zdiscriminatedUnion os => nodesLazyFree os
  | .zintersection l r => lazyFree l && lazyFree r
  | .ztuple its => nodesLazyFree its
  | .zoptional i => lazyFree i
  | .znullable i => lazyFree i
  | .zdefault i _ => lazyFree i
  | .zeffects i => lazyFree i
  | .zbranded i => lazyFree i
  | .zcatch i => lazyFree i
  | .zpipeline o => lazyFree o
  | .zreadonly i => lazyFree i
  | _ => true
termination_by c => sizeOf c

/-- Lazy-freeness of a list of nodes. -/
def nodesLazyFree : List SchemaNode → Bool
  | [] => true
  | a :: l => lazyFree a && nodesLazyFree l
termination_by l => sizeOf l

/-- Lazy-freeness of an object shape. -/
def fieldsLazyFree : List (String × SchemaNode) → Bool
  | [] => true
  | (_, v) :: l => lazyFree v && fieldsLazyFree l
termination_by l => sizeOf l

end

theorem nodesLazyFree_mem : ∀ {l : List SchemaNode}, nodesLazyFree l = true →
    ∀ a ∈ l, lazyFree a = true := by
  intro l
  induction l with
  | nil =>
    intro _ a ha
    simp at ha
  | cons x t ihl =>
    intro h a ha
    simp only [nodesLazyFree] at h
    rcases List.mem_cons.mp ha with h1 | h1
    · subst h1
      exact (Bool.and_eq_true_iff.mp h).1
    · exact ihl (Bool.and_eq_true_iff.mp h).2 a h1

theorem fieldsLazyFree_mem : ∀ {l : List (String × SchemaNode)}, fieldsLazyFree l = true →
    ∀ kv ∈ l, lazyFree kv.2 = true := by
  intro l
  induction l with
  | nil =>
    intro _ kv hkv
    simp at hkv
  | cons x t ihl =>
    intro h kv hkv
    obtain ⟨k0, v0⟩ := x
    simp only [fieldsLazyFree] at h
    rcases List.mem_cons.mp hkv with h1 | h1
    · subst h1
      exact (Bool.and_eq_true_iff.mp h).1
    · exact ihl (Bool.and_eq_true_iff.mp h).2 kv h1

theorem optionMapList_some_of_forall {α β : Type} {f : α → Option β} :
    ∀ {l : List α}, (∀ a ∈ l, ∃ b, f a = some b) → ∃ bl, optionMapList f l = some bl := by
  intro l
  induction l with
  | nil =>
    intro _
    exact ⟨[], rfl⟩
  | cons x t ihl =>
    intro h
    obtain ⟨b, hb⟩ := h x (List.mem_cons_self x t)
    obtain ⟨bl, hbl⟩ := ihl (fun a ha => h a (List.mem_cons_of_mem x ha))
    refine ⟨b :: bl, ?_⟩
    simp [optionMapList, hb, hbl]

/-- Any fuel strictly above the tree size is enough for the compiler to
return a result on a lazy-free tree. -/
theorem processZodType_terminates_of_lazyFree :
    ∀ (n : Nat) (node : SchemaNode), sizeOf node < n → lazyFree node = true →
    ∀ env : SchemaEnv, ∃ j, processZodType n env node = some j := by
  intro n
  induction n using Nat.strong_induction_on with
  | _ n ih =>
    intro node hsize hlf env
    cases n with
    | zero => omega
    | succ m =>
      obtain ⟨d, core⟩ := node
      cases core with
      | zstring checks => exact ⟨_, rfl⟩
      | znumber => exact ⟨_, rfl⟩
      | zbigint => exact ⟨_, rfl⟩
      | zboolean => exact ⟨_, rfl⟩
      | znull => exact ⟨_, rfl⟩
      | zundefined => exact ⟨_, rfl⟩
      | zliteral v => exact ⟨_, rfl⟩
      | zenum values => exact ⟨_, rfl⟩
      | znativeEnum entries => exact ⟨_, rfl⟩
      | zrecord => exact ⟨_, rfl⟩
      | zany => exact ⟨_, rfl⟩
      | zunknown => exact ⟨_, rfl⟩
      | znever => exact ⟨_, rfl⟩
      | zvoid => exact ⟨_, rfl⟩
      | zdate => exact ⟨_, rfl⟩
      | zunhandled => exact ⟨_, rfl⟩
      | zlazy ref =>
        exfalso
        simp [lazyFree, coreLazyFree] at hlf
      | zarray elem minLength =>
        have hlf2 : lazyFree elem = true := by simpa [lazyFree, coreLazyFree] using hlf
        have hsz : sizeOf elem < m := by
          simp at hsize
          omega
        obtain ⟨j, hj⟩ := ih m (Nat.lt_succ_self m) elem hsz hlf2 env
        refine ⟨processArrayResult j minLength, ?_⟩
        simp only [processZodType, hj]
      | zobject shape =>
        have hlf2 : fieldsLazyFree shape = true := by simpa [lazyFree, coreLazyFree] using hlf
        have hall : ∀ kv ∈ shape, ∃ b, compileField m env kv = some b := by
          intro kv hkv
          have hlfv := fieldsLazyFree_mem hlf2 kv hkv
          have hskv : sizeOf kv < sizeOf shape := List.sizeOf_lt_of_mem hkv
          obtain ⟨k0, v0⟩ := kv
          have hsv : sizeOf v0 < m := by
            simp at hsize hskv
            omega
          obtain ⟨j, hj⟩ := ih m (Nat.lt_succ_self m) v0 hsv (by simpa using hlfv) env
          exact ⟨(k0, applyFieldDesc v0.desc j), by simp [compileField, hj]⟩
        obtain ⟨props, hprops⟩ := optionMapList_some_of_forall hall
        refine ⟨processObjectResult shape props, ?_⟩
        rw [processZodType_object_eq, hprops]
      | zunion options =>
        have hlf2 : nodesLazyFree options = true := by simpa [lazyFree, coreLazyFree] using hlf
        have hall : ∀ a ∈ options, ∃ b, processZodType m env a = some b := by
          intro a ha
          have hlfa := nodesLazyFree_mem hlf2 a ha
          have hsa : sizeOf a < sizeOf options := List.sizeOf_lt_of_mem ha
          have hsam : sizeOf a < m := by
            simp at hsize
            omega
          exact ih m (Nat.lt_succ_self m) a hsam hlfa env
        obtain ⟨opts, hopts⟩ := optionMapList_some_of_forall hall
        refine ⟨{ JsonSchema.empty with anyOf := some opts }, ?_⟩
        simp only [processZodType, hopts]
      | zdiscriminatedUnion options =>
        have hlf2 : nodesLazyFree options = true := by simpa [lazyFree, coreLazyFree] using hlf
        have hall : ∀ a ∈ options, ∃ b, processZodType m env a = some b := by
          intro a ha
          have hlfa := nodesLazyFree_mem hlf2 a ha
          have hsa : sizeOf a < sizeOf options := List.sizeOf_lt_of_mem ha
          have hsam : sizeOf a < m := by
            simp at hsize
            omega
          exact ih m (Nat.lt_succ_self m) a hsam hlfa env
        obtain ⟨opts, hopts⟩ := optionMapList_some_of_forall hall
        refine ⟨{ JsonSchema.empty with anyOf := some opts }, ?_⟩
        simp only [processZodType, hopts]
      | zintersection left right =>
        have hlf2 : lazyFree left = true ∧ lazyFree right = true := by
          have := hlf
          simp [lazyFree, coreLazyFree] at this
          exact this
        have hsl : sizeOf left < m := by
          simp at hsize
          omega
        have hsr : sizeOf right < m := by
          simp at hsize
          omega
        obtain ⟨jl, hjl⟩ := ih m (Nat.lt_succ_self m) left hsl hlf2.1 env
        obtain ⟨jr, hjr⟩ := ih m (Nat.lt_succ_self m) right hsr hlf2.2 env
        refine ⟨{ JsonSchema.empty with allOf := some [jl, jr] }, ?_⟩
        simp only [processZodType, hjl, hjr]
      | ztuple items =>
        have hlf2 : nodesLazyFree items = true := by simpa [lazyFree, coreLazyFree] using hlf
        have hall : ∀ a ∈ items, ∃ b, processZodType m env a = some b := by
          intro a ha
          have hlfa := nodesLazyFree_mem hlf2 a ha
          have hsa : sizeOf a < sizeOf items := List.sizeOf_lt_of_mem ha
          have hsam : sizeOf a < m := by
            simp at hsize
            omega
          exact ih m (Nat.lt_succ_self m) a hsam hlfa env
        obtain ⟨its, hits⟩ := optionMapList_some_of_forall hall
        rcases its with _ | ⟨a, t⟩
        · refine ⟨{ JsonSchema.empty with
              type := some "array",
              items := some { JsonSchema.empty with anyOf := some ([] : List JsonSchema) } }, ?_⟩
          simp only [processZodType, hits]
        · rcases t with _ | ⟨b, t2⟩
          · refine ⟨{ JsonSchema.empty with type := some "array", items := some a }, ?_⟩
            simp only [processZodType, hits]
          · refine ⟨{ JsonSchema.empty with
                type := some "array",
                items := some { JsonSchema.empty with anyOf := some (a :: b :: t2) } }, ?_⟩
            simp only [processZodType, hits]
      | zoptional inner =>
        have hlf2 : lazyFree inner = true := by simpa [lazyFree, coreLazyFree] using hlf
        have hsz : sizeOf inner < m := by
          simp at hsize
          omega
        obtain ⟨j, hj⟩ := ih m (Nat.lt_succ_self m) inner hsz hlf2 env
        exact ⟨j, by simpa [processZodType] using hj⟩
      | znullable inner =>
        have hlf2 : lazyFree inner = true := by simpa [lazyFree, coreLazyFree] using hlf
        have hsz : sizeOf inner < m := by
          simp at hsize
          omega
        obtain ⟨j, hj⟩ := ih m (Nat.lt_succ_self m) inner hsz hlf2 env
        refine ⟨{ JsonSchema.empty with
            anyOf := some [j, { JsonSchema.empty with type := some "null" }] }, ?_⟩
        simp only [processZodType, hj]
      | zdefault inner defaultValue =>
        have hlf2 : lazyFree inner = true := by simpa [lazyFree, coreLazyFree] using hlf
        have hsz : sizeOf inner < m := by
          simp at hsize
          omega
        obtain ⟨j, hj⟩ := ih m (Nat.lt_succ_self m) inner hsz hlf2 env
        refine ⟨{ j with default := some defaultValue }, ?_⟩
        simp only [processZodType, hj]
      | zeffects inner =>
        have hlf2 : lazyFree inner = true := by simpa [lazyFree, coreLazyFree] using hlf
        have hsz : sizeOf inner < m := by
          simp at hsize
          omega
        obtain ⟨j, hj⟩ := ih m (Nat.lt_succ_self m) inner hsz hlf2 env
        exact ⟨j, by simpa [processZodType] using hj⟩
      | zbranded inner =>
        have hlf2 : lazyFree inner = true := by simpa [lazyFree, coreLazyFree] using hlf
        have hsz : sizeOf inner < m := by
          simp at hsize
          omega
        obtain ⟨j, hj⟩ := ih m (Nat.lt_succ_self m) inner hsz hlf2 env
        exact ⟨j, by simpa [processZodType] using hj⟩
      | zcatch inner =>
        have hlf2 : lazyFree inner = true := by simpa [lazyFree, coreLazyFree] using hlf
        have hsz : sizeOf inner < m := by
          simp at hsize
          omega
        obtain ⟨j, hj⟩ := ih m (Nat.lt_succ_self m) inner hsz hlf2 env
        exact ⟨j, by simpa [processZodType] using hj⟩
      | zpipeline outType =>
        have hlf2 : lazyFree outType = true := by simpa [lazyFree, coreLazyFree] using hlf
        have hsz : sizeOf outType < m := by
          simp at hsize
          omega
        obtain ⟨j, hj⟩ := ih m (Nat.lt_succ_self m) outType hsz hlf2 env
        exact ⟨j, by simpa [processZodType] using hj⟩
      | zreadonly inner =>
        have hlf2 : lazyFree inner = true := by simpa [lazyFree, coreLazyFree] using hlf
        have hsz : sizeOf inner < m := by
          simp at hsize
          omega
        obtain ⟨j, hj⟩ := ih m (Nat.lt_succ_self m) inner hsz hlf2 env
        exact ⟨j, by simpa [processZodType] using hj⟩

/-- A cyclic self-referential schema through a union arm:
`const N = z.lazy(() => z.union([z.string(), N]))`. -/
def cyclicUnionEnv : SchemaEnv := fun _ => ⟨none, .zunion [strNode, ⟨none, .zlazy "N"⟩]⟩

/-- The compiler never terminates on the cyclic union schema, for any fuel:
`processUnion` compiles every arm, so the lazy self-reference is re-entered
unconditionally even though the string arm terminates. -/
theorem cyclicUnion_diverges : ∀ fuel : Nat,
    processZodType fuel cyclicUnionEnv ⟨none, .zlazy "N"⟩ = none ∧
    processZodType fuel cyclicUnionEnv (cyclicUnionEnv "N") = none := by
  intro fuel
  induction fuel with
  | zero => exact ⟨rfl, rfl⟩
  | succ n ih =>
    constructor
    · have hstep : processZodType (n + 1) cyclicUnionEnv ⟨none, .zlazy "N"⟩ =
          processZodType n cyclicUnionEnv (cyclicUnionEnv "N") := rfl
      rw [hstep]
      exact ih.2
    · show processZodType (n + 1) cyclicUnionEnv
        ⟨none, .zunion [strNode, ⟨none, .zlazy "N"⟩]⟩ = none
      have hlazy := ih.1
      cases hstr : processZodType n cyclicUnionEnv strNode with
      | none => simp only [processZodType, optionMapList, hstr]
      | some s => simp only [processZodType, optionMapList, hstr, hlazy]

/-- Counterexample to C9 as stated: the cyclic tree `lazy(N)` with
`N = union([string, lazy(N)])` reaches a terminating base case through an
intervening union arm (the string arm compiles with fuel 1), and yet compile
does not terminate on it for any fuel — the compiler does not memoize and
recurses into every union arm and every optional inner type
unconditionally. -/
theorem c9_counterexample_cyclic_union_diverges :
    (¬ ∃ fuel j, processZodType fuel cyclicUnionEnv ⟨none, .zlazy "N"⟩ = some j) ∧
    processZodType 1 cyclicUnionEnv strNode = some (processString []) := by
  constructor
  · rintro ⟨fuel, j, hj⟩
    rw [(cyclicUnion_diverges fuel).1] at hj
    exact Option.noConfusion hj
  · rfl

/-- C9 (amended): compile terminates on every SchemaNode tree without lazy
self-reference: for a lazy-free tree some fuel returns a result, whatever the
environment. -/
theorem c9_amended_lazyFree_terminates (node : SchemaNode) (env : SchemaEnv)
    (hlf : lazyFree node = true) :
    ∃ fuel j, processZodType fuel env node = some j := by
  obtain ⟨j, hj⟩ := processZodType_terminates_of_lazyFree (sizeOf node + 1) node
    (Nat.lt_succ_self _) hlf env
  exact ⟨sizeOf node + 1, j, hj⟩

/-- Witness for the amended C9: `z.object({a: z.string()})` is lazy-free and
compile terminates on it. -/
theorem c9_amended_lazyFree_terminates_witness :
    ∃ fuel j, processZodType fuel trivialEnv ⟨none, .zobject [("a", strNode)]⟩ = some j :=
  c9_amended_lazyFree_terminates ⟨none, .zobject [("a", strNode)]⟩ trivialEnv
    (by simp [lazyFree, coreLazyFree, fieldsLazyFree, strNode])

/-! ## Witness fixtures for C7 -/

/-- The shape `{a: z.string(), b: z.string().optional(), c: z.string().default('x')}`. -/
def c7shape : List (String × SchemaNode) :=
  [("a", strNode), ("b", ⟨none, .zoptional strNode⟩),
   ("c", ⟨none, .zdefault strNode (.str "x")⟩)]

/-- The compiled form of the C7 witness object. -/
def c7compiled : JsonSchema :=
  processObjectResult c7shape
    [("a", processString []), ("b", processString []),
     ("c", { processString [] with default := some (.str "x") })]

/-- Witness for C7: in the concrete object, the optional key `b` and the
defaulted key `c` are both absent from the compiled `required` list. -/
theorem c7_optional_default_fields_witness :
    processZodType 4 trivialEnv ⟨none, .zobject c7shape⟩ = some c7compiled ∧
    (∀ req, c7compiled.required = some req → "b" ∉ req) ∧
    (∀ req, c7compiled.required = some req → "c" ∉ req) := by
  have hb := (c7_optional_default_fields 4 trivialEnv none none c7shape "b" c7compiled
      (by decide) rfl).1 strNode (List.Mem.tail _ (List.Mem.head _))
  have hc := (c7_optional_default_fields 4 trivialEnv none none c7shape "c" c7compiled
      (by decide) rfl).2 strNode (JsonValue.str "x")
      (List.Mem.tail _ (List.Mem.tail _ (List.Mem.head _)))
  exact ⟨rfl, hb.1, hc.1⟩

/-! ## Claim C3 -/

/-- C3: invoking a tool through `executeToolWithDefinition` calls `onStart`
(when present) first, before any `implementation` call; calls `onComplete`
(when present) strictly after `implementation` resolves; and when the
invoked `implementation` rejects, `onComplete` is never called and the
rejection propagates to the caller unmodified. -/
theorem c3_tool_lifecycle {ε α ρ : Type} (td : ToolDefinition ε α ρ) (args : α) :
    (td.onStart.isSome = true →
      ∃ l, (executeToolWithDefinition td args).1 = TEvent.startCalled :: l) ∧
    (∀ (g : α → ρ → Except ε Unit) (r : ρ), td.onComplete = some g →
      td.implementation args = Except.ok r →
      TEvent.implCalled ∈ (executeToolWithDefinition td args).1 →
      ∃ l, (executeToolWithDefinition td args).1 =
        l ++ [TEvent.implCalled, TEvent.completeCalled]) ∧
    (∀ e : ε, td.implementation args = Except.error e →
      TEvent.implCalled ∈ (executeToolWithDefinition td args).1 →
      TEvent.completeCalled ∉ (executeToolWithDefinition td args).1 ∧
      (executeToolWithDefinition td args).2 = Except.error e) := by
  obtain ⟨impl, ost, ocomp⟩ := td
  cases ost with
  | some f =>
    cases hf : f args with
    | error e0 =>
      have hE : executeToolWithDefinition ⟨impl, some f, ocomp⟩ args =
          ([TEvent.startCalled], Except.error e0) := by
        simp [executeToolWithDefinition, hf]
      refine ⟨?_, ?_, ?_⟩
      · intro _
        rw [hE]
        exact ⟨[], rfl⟩
      · intro g r _ _ hmem
        rw [hE] at hmem
        simp at hmem
      · intro e _ hmem
        rw [hE] at hmem
        simp at hmem
    | ok u =>
      have hE : executeToolWithDefinition ⟨impl, some f, ocomp⟩ args =
          runImplementationPhase ⟨impl, some f, ocomp⟩ args [TEvent.startCalled] := by
        simp [executeToolWithDefinition, hf]
      cases hI : impl args with
      | error e1 =>
        have hR : executeToolWithDefinition ⟨impl, some f, ocomp⟩ args =
            ([TEvent.startCalled, TEvent.implCalled], Except.error e1) := by
          rw [hE]
          simp [runImplementationPhase, hI]
        refine ⟨?_, ?_, ?_⟩
        · intro _
          rw [hR]
          exact ⟨[TEvent.implCalled], rfl⟩
        · intro g r _ hr _
          have hr2 : impl args = Except.ok r := hr
          rw [hI] at hr2
          exact absurd hr2 (by simp)
        · intro e hIe hmem
          have hIe2 : impl args = Except.error e := hIe
          rw [hI] at hIe2
          have he : e1 = e := by
            injection hIe2
          subst he
          rw [hR]
          refine ⟨?_, rfl⟩
          simp
      | ok r0 =>
        cases ocomp with
        | none =>
          have hR : executeToolWithDefinition ⟨impl, some f, none⟩ args =
              ([TEvent.startCalled, TEvent.implCalled], Except.ok r0) := by
            rw [hE]
            simp [runImplementationPhase, hI]
          refine ⟨?_, ?_, ?_⟩
          · intro _
            rw [hR]
            exact ⟨[TEvent.implCalled], rfl⟩
          · intro g r hg _ _
            exact absurd hg (by simp)
          · intro e hIe _
            have hIe2 : impl args = Except.error e := hIe
            rw [hI] at hIe2
            exact absurd hIe2 (by simp)
        | some g0 =>
          cases hg : g0 args r0 with
          | error e2 =>
            have hR : executeToolWithDefinition ⟨impl, some f, some g0⟩ args =
                ([TEvent.startCalled, TEvent.implCalled, TEvent.completeCalled],
                 Except.error e2) := by
              rw [hE]
              simp [runImplementationPhase, hI, hg]
            refine ⟨?_, ?_, ?_⟩
            · intro _
              rw [hR]
              exact ⟨[TEvent.implCalled, TEvent.completeCalled], rfl⟩
            · intro g r _ _ _
              rw [hR]
              exact ⟨[TEvent.startCalled], rfl⟩
            · intro e hIe _
              have hIe2 : impl args = Except.error e := hIe
              rw [hI] at hIe2
              exact absurd hIe2 (by simp)
          | ok u2 =>
            have hR : executeToolWithDefinition ⟨impl, some f, some g0⟩ args =
                ([TEvent.startCalled, TEvent.implCalled, TEvent.completeCalled],
                 Except.ok r0) := by
              rw [hE]
              simp [runImplementationPhase, hI, hg]
            refine ⟨?_, ?_, ?_⟩
            · intro _
              rw [hR]
              exact ⟨[TEvent.implCalled, TEvent.completeCalled], rfl⟩
            · intro g r _ _ _
              rw [hR]
              exact ⟨[TEvent.startCalled], rfl⟩
            · intro e hIe _
              have hIe2 : impl args = Except.error e := hIe
              rw [hI] at hIe2
              exact absurd hIe2 (by simp)
  | none =>
    have hE : executeToolWithDefinition ⟨impl, none, ocomp⟩ args =
        runImplementationPhase ⟨impl, none, ocomp⟩ args [] := by
      simp [executeToolWithDefinition]
    cases hI : impl args with
    | error e1 =>
      have hR : executeToolWithDefinition ⟨impl, none, ocomp⟩ args =
          ([TEvent.implCalled], Except.error e1) := by
        rw [hE]
        simp [runImplementationPhase, hI]
      refine ⟨?_, ?_, ?_⟩
      · intro hs
        simp at hs
      · intro g r _ hr _
        have hr2 : impl args = Except.ok r := hr
        rw [hI] at hr2
        exact absurd hr2 (by simp)
      · intro e hIe hmem
        have hIe2 : impl args = Except.error e := hIe
        rw [hI] at hIe2
        have he : e1 = e := by
          injection hIe2
        subst he
        rw [hR]
        refine ⟨?_, rfl⟩
        simp
    | ok r0 =>
      cases ocomp with
      | none =>
        have hR : executeToolWithDefinition ⟨impl, none, none⟩ args =
            ([TEvent.implCalled], Except.ok r0) := by
          rw [hE]
          simp [runImplementationPhase, hI]
        refine ⟨?_, ?_, ?_⟩
        · intro hs
          simp at hs
        · intro g r hg _ _
          exact absurd hg (by simp)
        · intro e hIe _
          have hIe2 : impl args = Except.error e := hIe
          rw [hI] at hIe2
          exact absurd hIe2 (by simp)
      | some g0 =>
        cases hg : g0 args r0 with
        | error e2 =>
          have hR : executeToolWithDefinition ⟨impl, none, some g0⟩ args =
              ([TEvent.implCalled, TEvent.completeCalled], Except.error e2) := by
            rw [hE]
            simp [runImplementationPhase, hI, hg]
          refine ⟨?_, ?_, ?_⟩
          · intro hs
            simp at hs
          · intro g r _ _ _
            rw [hR]
            exact ⟨[], rfl⟩
          · intro e hIe _
            have hIe2 : impl args = Except.error e := hIe
            rw [hI] at hIe2
            exact absurd hIe2 (by simp)
        | ok u2 =>
          have hR : executeToolWithDefinition ⟨impl, none, some g0⟩ args =
              ([TEvent.implCalled, TEvent.completeCalled], Except.ok r0) := by
            rw [hE]
            simp [runImplementationPhase, hI, hg]
          refine ⟨?_, ?_, ?_⟩
          · intro hs
            simp at hs
          · intro g r _ _ _
            rw [hR]
            exact ⟨[], rfl⟩
          · intro e hIe _
            have hIe2 : impl args = Except.error e := hIe
            rw [hI] at hIe2
            exact absurd hIe2 (by simp)

/-- A tool whose hooks and implementation all succeed. -/
def happyTool : ToolDefinition String Unit Nat :=
  ⟨fun _ => Except.ok 42, some (fun _ => Except.ok ()), some (fun _ _ => Except.ok ())⟩

/-- A tool with no `onStart` whose implementation rejects. -/
def rejectingTool : ToolDefinition String Unit Nat :=
  ⟨fun _ => Except.error "boom", none, some (fun _ _ => Except.ok ())⟩

/-- Witness for C3: on a succeeding tool, `onStart` leads the trace and
`onComplete` follows `implementation`; on a rejecting tool, `onComplete` is
never called and the rejection propagates unmodified. -/
theorem c3_tool_lifecycle_witness :
    (∃ l, (executeToolWithDefinition happyTool ()).1 = TEvent.startCalled :: l) ∧
    (∃ l, (executeToolWithDefinition happyTool ()).1 =
      l ++ [TEvent.implCalled, TEvent.completeCalled]) ∧
    (TEvent.completeCalled ∉ (executeToolWithDefinition rejectingTool ()).1 ∧
      (executeToolWithDefinition rejectingTool ()).2 = Except.error "boom") := by
  refine ⟨?_, ?_, ?_⟩
  · exact (c3_tool_lifecycle happyTool ()).1 rfl
  · exact (c3_tool_lifecycle happyTool ()).2.1 (fun _ _ => Except.ok ()) 42 rfl rfl (by decide)
  · exact (c3_tool_lifecycle rejectingTool ()).2.2 "boom" rfl (by decide)

/-! ## Claim C4 -/

/-- A tool whose `onStart` hook throws synchronously. -/
def throwingHookTool : ToolDefinition String Unit Nat :=
  ⟨fun _ => Except.ok 42, some (fun _ => Except.error "hookfail"), none⟩

/-- Counterexample to C4 as stated: when `onStart` throws, the hook failure
does block the call — `implementation` is never invoked and its result 42 is
not returned; the hook's error rejects the returned promise instead. -/
theorem c4_counterexample_onStart_throw_blocks :
    executeToolWithDefinition throwingHookTool () =
      ([TEvent.startCalled], Except.error "hookfail") ∧
    TEvent.implCalled ∉ (executeToolWithDefinition throwingHookTool ()).1 ∧
    (executeToolWithDefinition throwingHookTool ()).2 ≠ Except.ok 42 := by
  refine ⟨rfl, by decide, ?_⟩
  intro h
  exact Except.noConfusion h

/-- C4 (amended): when a present `onStart` hook throws,
`executeToolWithDefinition` propagates the hook's error to the caller and
`implementation` is never called — the trace is exactly `[startCalled]`. -/
theorem c4_amended_onStart_throw_propagates {ε α ρ : Type} (td : ToolDefinition ε α ρ)
    (args : α) (f : α → Except ε Unit) (e : ε)
    (hs : td.onStart = some f) (hf : f args = Except.error e) :
    executeToolWithDefinition td args = ([TEvent.startCalled], Except.error e) := by
  obtain ⟨impl, ost, ocomp⟩ := td
  have hs2 : ost = some f := hs
  subst hs2
  simp [executeToolWithDefinition, hf]

/-- Witness for the amended C4: the concrete throwing-hook tool rejects with
the hook's error and records no implementation call. -/
theorem c4_amended_onStart_throw_propagates_witness :
    executeToolWithDefinition throwingHookTool () =
      ([TEvent.startCalled], Except.error "hookfail") :=
  c4_amended_onStart_throw_propagates throwingHookTool ()
    (fun _ => Except.error "hookfail") "hookfail" rfl rfl
